import Mathlib

/-!
Verification of the termux-language-server analysis core.  The file embeds,
shallowly, the filetype classifier (utils.get_filetype), the cursor-word
extraction, the hover and completion lookups, and the handler guards of
server.py, and — modelled from the specification, since the finder modules
are not among the sources at hand — the required/unsorted keyword finders
and the edit synthesizer.  Theorems about these definitions then settle the
behavioural claims on the server.
-/

set_option linter.unusedVariables false

/-- Zero-based cursor position mirroring the protocol Position type
(line, character). -/
structure Position where
  line : Nat
  character : Nat
deriving DecidableEq

/-- Protocol range: a start position and a stop position (the source field
named end; stop here because end is a Lean keyword). -/
structure Range where
  start : Position
  stop : Position
deriving DecidableEq

/-- A syntax-tree token: its source text and its source offset interval,
lo inclusive and hi exclusive.  The keyword finders and the edit
synthesizer consume tokens at this level. -/
structure Token where
  text : String
  lo : Nat
  hi : Nat
deriving DecidableEq

/-- A diagnostic over a source offset interval with a message. -/
structure Diag where
  lo : Nat
  hi : Nat
  message : String
deriving DecidableEq

/-- A text edit replacing the source interval lo..hi with newText. -/
structure TextEdit where
  lo : Nat
  hi : Nat
  newText : String
deriving DecidableEq

/-- Split of a character list at every occurrence of a separator, with the
semantics of the Python str.split on a one-character separator: the empty
input gives one empty field. -/
def splitOnChar (sep : Char) : List Char → List (List Char)
  | [] => [[]]
  | c :: cs =>
    if c = sep then [] :: splitOnChar sep cs
    else
      match splitOnChar sep cs with
      | [] => [[c]]
      | h :: t => (c :: h) :: t

/-- Suffix test on strings through their character lists. -/
def endsWithStr (s suf : String) : Bool :=
  suf.data.isSuffixOf s.data

/-- Last path component of a posix path, as os.path.basename. -/
def basenameOf (uri : String) : String :=
  String.mk ((splitOnChar '/' uri.data).getLastD [])

/-- Last dot-separated component: the source computes
uri.split(os.path.extsep)[-1] with extsep the dot. -/
def extOf (uri : String) : String :=
  String.mk ((splitOnChar '.' uri.data).getLastD [])

/-- Filetype classification from utils.get_filetype: checks the basename
and the extension against the known recipe file names, returning the empty
string when none matches. -/
def get_filetype (uri : String) : String :=
  let basename := basenameOf uri
  let ext := extOf uri
  if basename = "build.sh" then "build.sh"
  else if endsWithStr basename ".subpackage.sh" then "subpackage.sh"
  else if ext = "install" then "install"
  else if basename = "PKGBUILD" then "PKGBUILD"
  else if ext = "ebuild" ∨ ext = "eclass" then "ebuild"
  else if basename = "make.conf" then "make.conf"
  else if basename = "color.map" then "color.map"
  else ""

/-- Word characters of the regex class used by cursor-word extraction
(ASCII fragment of Python backslash-w). -/
def isWordChar (c : Char) : Bool :=
  c.isAlphanum || c = '_'

/-- Worker for wordRuns: scans the line left to right carrying the index
and the start of the current run, if a run is open. -/
def runsAux : List Char → Nat → Option Nat → List (Nat × Nat)
  | [], _, none => []
  | [], i, some s => [(s, i)]
  | c :: cs, i, none =>
    if isWordChar c then runsAux cs (i + 1) (some i) else runsAux cs (i + 1) none
  | c :: cs, i, some s =>
    if isWordChar c then runsAux cs (i + 1) (some s)
    else (s, i) :: runsAux cs (i + 1) none

/-- Maximal word-character runs of a line with their start index and
exclusive end index, in increasing order: the match list produced by
re.finditer over the line. -/
def wordRuns (line : List Char) : List (Nat × Nat) :=
  runsAux line 0 none

/-- Cursor-word extraction from server._cursor_word with include_all False,
the form the completion handler uses: the first word run whose closed span
contains the cursor column yields the prefix from the run start up to the
cursor column, with a range from the run start to the cursor column; when
no run contains the column, the empty word with a zero-width range at
column 0 of the cursor line. -/
def cursorWord (line : List Char) (lineNo col : Nat) : List Char × Range :=
  match (wordRuns line).find? (fun p => p.1 ≤ col && col ≤ p.2) with
  | some p =>
    ((line.drop p.1).take (col - p.1), ⟨⟨lineNo, p.1⟩, ⟨lineNo, col⟩⟩)
  | none => ([], ⟨⟨lineNo, 0⟩, ⟨lineNo, 0⟩⟩)

/-- The cursor-word call as typed at its use site in the completion
handler, where the result is tested against None. -/
def cursorWordOpt (line : List Char) (lineNo col : Nat) :
    Option (List Char × Range) :=
  some (cursorWord line lineNo col)

/-- Token extraction in the completion handler: the empty string when the
cursor-word result is None, its first component otherwise. -/
def completionToken (line : List Char) (lineNo col : Nat) : List Char :=
  match cursorWordOpt line lineNo col with
  | none => []
  | some w => w.1

/-- Schema rows (name, documentation, filetype tag): the JSON document
mapping a name to the pair of its description and its filetype. -/
abbrev Schema := List (String × String × String)

/-- Dictionary lookup with default, as self.document.get(text, two empty
strings). -/
def docGet (doc : Schema) (key : String) : String × String :=
  match doc.find? (fun e => e.1 == key) with
  | some e => e.2
  | none => ("", "")

/-- A resolved syntax node as the hover handler consumes it: its text and
its range. -/
structure Node where
  text : String
  range : Range
deriving DecidableEq

/-- Hover payload: plain-text contents plus the range of the queried
token. -/
structure HoverResult where
  contents : String
  range : Range
deriving DecidableEq

/-- Hover lookup from server.hover after position resolution: None when no
node was resolved; otherwise the node text is looked up in the schema and
the answer is dropped when the looked-up description is empty or the
looked-up filetype differs from the active one. -/
def hover (doc : Schema) (filetype : String) (uni : Option Node) :
    Option HoverResult :=
  match uni with
  | none => none
  | some n =>
    let p := docGet doc n.text
    if p.1 = "" ∨ p.2 ≠ filetype then none
    else some ⟨p.1, n.range⟩

/-- Cased characters in the ASCII fragment modelled here; Python
str.isupper quantifies over the cased characters of the string. -/
def isCased (c : Char) : Bool :=
  c.isUpper || c.isLower

/-- Python str.isupper: at least one cased character and every cased
character uppercase. -/
def isupperPy (s : String) : Bool :=
  s.data.any isCased && s.data.all (fun c => !isCased c || c.isUpper)

/-- The two completion item kinds the server assigns. -/
inductive CompletionItemKind where
  | Variable
  | Function
deriving DecidableEq

/-- A completion item as the server builds it: label, kind, documentation
and insert text. -/
structure CompletionItem where
  label : String
  kind : CompletionItemKind
  documentation : String
  insertText : String
deriving DecidableEq

/-- A completion list: the isIncomplete flag and the items. -/
structure CompletionList where
  isIncomplete : Bool
  items : List CompletionItem
deriving DecidableEq

/-- Substring test: the Python expression a in b for strings is
strContains b a. -/
def strContains (hay needle : String) : Bool :=
  (List.range (hay.length + 1)).any (fun i => needle.data.isPrefixOf (hay.data.drop i))

/-- Completion items from server.completions given the extracted token:
one item per schema row whose name has the token as a prefix and whose
filetype tag occurs inside the active filetype string (the source tests
membership with the Python in operator on strings), with the kind chosen
by str.isupper on the name. -/
def completions (doc : Schema) (filetype token : String) : List CompletionItem :=
  doc.filterMap (fun e =>
    if token.data.isPrefixOf e.1.data && strContains filetype e.2.2 then
      some ⟨e.1,
            if isupperPy e.1 then CompletionItemKind.Variable
            else CompletionItemKind.Function,
            e.2.1, e.1⟩
    else none)

/-- A document link over a source interval pointing at a target url. -/
structure DocumentLink where
  lo : Nat
  hi : Nat
  target : String
deriving DecidableEq

/-- Shape of the did_change handler: the filetype guard, then the
diagnostics computation; None models returning without publishing
anything. -/
def did_change (body : String → List Diag) (uri : String) : Option (List Diag) :=
  let filetype := get_filetype uri
  if filetype = "" then none
  else some (body filetype)

/-- Shape of the formatting handler: the filetype guard, then the edit
synthesis. -/
def format_handler (body : String → List TextEdit) (uri : String) : List TextEdit :=
  let filetype := get_filetype uri
  if filetype = "" then []
  else body filetype

/-- Shape of the document-link handler: the filetype guard, then the link
computation. -/
def document_link (body : String → List DocumentLink) (uri : String) :
    List DocumentLink :=
  let filetype := get_filetype uri
  if filetype = "" then []
  else body filetype

/-- Shape of the hover handler: the filetype guard, then the lookup. -/
def hover_handler (body : String → Option HoverResult) (uri : String) :
    Option HoverResult :=
  let filetype := get_filetype uri
  if filetype = "" then none
  else body filetype

/-- Shape of the completion handler: the filetype guard, then the item
computation. -/
def completions_handler (body : String → CompletionList) (uri : String) :
    CompletionList :=
  let filetype := get_filetype uri
  if filetype = "" then ⟨false, []⟩
  else body filetype

/-- Modelled from the spec: the syntax tree as the keyword finders consume
it — the keyword-identifier nodes in declaration order plus the root
interval (the finders module of the repository is not among the sources at
hand). -/
structure KwTree where
  rootLo : Nat
  rootHi : Nat
  toks : List Token
deriving DecidableEq

/-- The keyword texts present in a tree. -/
def presentTexts (toks : List Token) : List String :=
  toks.map (fun t => t.text)

/-- Message of a missing-required-keyword diagnostic; it names the
keyword. -/
def missingMsg (k : String) : String :=
  "required keyword " ++ k ++ " is missing"

/-- The diagnostic for one missing required keyword, anchored at the tree
root. -/
def mkMissing (t : KwTree) (k : String) : Diag :=
  ⟨t.rootLo, t.rootHi, missingMsg k⟩

/-- Modelled from the spec: RequiredKeywordFinder — after collecting the
keyword texts present, one diagnostic per entry of required not present,
anchored at the tree root and naming the keyword (the finders module is
not among the sources at hand). -/
def requiredKeywordFinder (required : List String) (t : KwTree) : List Diag :=
  required.filterMap (fun k =>
    if k ∈ presentTexts t.toks then none
    else some (mkMissing t k))

/-- Modelled from the spec: a keyword's rank, its position in the
filetype's canonical valid list. -/
def rank (valid : List String) (s : String) : Nat :=
  valid.indexOf s

/-- Message of an unsorted-keyword diagnostic. -/
def unsortedMsg (a b : String) : String :=
  a ++ " should not come before " ++ b

/-- The diagnostic for one inverted adjacent pair: its interval spans both
offending tokens. -/
def spanDiag (a b : Token) : Diag :=
  ⟨a.lo, b.hi, unsortedMsg a.text b.text⟩

/-- Modelled from the spec: UnsortedKeywordFinder — one diagnostic per
adjacent pair of keyword nodes, in declaration order, whose ranks are out
of ascending order, spanning the two tokens (the finders module is not
among the sources at hand). -/
def unsortedKeywordFinder (valid : List String) (toks : List Token) : List Diag :=
  (toks.zip toks.tail).filterMap (fun p =>
    if rank valid p.2.text < rank valid p.1.text then some (spanDiag p.1 p.2)
    else none)

/-- The inverted adjacent pairs of a declaration sequence. -/
def invertedPairs (valid : List String) (toks : List Token) : List (Token × Token) :=
  (toks.zip toks.tail).filter
    (fun p => decide (rank valid p.2.text < rank valid p.1.text))

/-- Modelled from the spec: the adjacent-order check a sort finder runs
over a token sequence under the comparator le. -/
def isSortedAdjacent (le : String → String → Bool) (toks : List Token) : Bool :=
  (toks.zip toks.tail).all (fun p => le p.1.text p.2.text)

/-- Modelled from the spec: stable insertion of a token into an already
sorted token list — the token goes after every element at most it under
le. -/
def insertTok (le : String → String → Bool) (t : Token) : List Token → List Token
  | [] => [t]
  | u :: us => if le u.text t.text then u :: insertTok le t us else t :: u :: us

/-- Modelled from the spec: the stable sort an edit synthesizer uses to
compute the target order of an affected sequence. -/
def sortToks (le : String → String → Bool) : List Token → List Token
  | [] => []
  | t :: ts => insertTok le t (sortToks le ts)

/-- A region a sort finder targets: its source interval and its token
sequence.  Distinct finders of a non-conflicting configuration target
pairwise disjoint regions. -/
structure Region where
  lo : Nat
  hi : Nat
  toks : List Token
deriving DecidableEq

/-- Character rendering of a token sequence, space separated. -/
def renderAux : List Token → List Char
  | [] => []
  | [t] => t.text.data
  | t :: ts => t.text.data ++ ' ' :: renderAux ts

/-- Rendering of a token sequence as replacement text. -/
def renderToks (toks : List Token) : String :=
  String.mk (renderAux toks)

/-- Modelled from the spec: one sort finder's contribution to format — no
edit when the region is already in order, otherwise one edit rewriting the
region to the stably sorted order (the format module is not among the
sources at hand). -/
def regionEdit (le : String → String → Bool) (r : Region) : Option TextEdit :=
  if isSortedAdjacent le r.toks then none
  else some ⟨r.lo, r.hi, renderToks (sortToks le r.toks)⟩

/-- Modelled from the spec: get_text_edits — the edits of all configured
sort finders over their regions, in finder order. -/
def get_text_edits (le : String → String → Bool) (regions : List Region) :
    List TextEdit :=
  regions.filterMap (regionEdit le)

/-- Modelled from the spec: the state of one region after the synthesized
edits are applied — an edited region now holds its tokens in the stably
sorted order, an untouched region is unchanged. -/
def applyFormatRegion (le : String → String → Bool) (r : Region) : Region :=
  if isSortedAdjacent le r.toks then r else ⟨r.lo, r.hi, sortToks le r.toks⟩

/-- Modelled from the spec: the document after one format call's edits are
applied, region by region. -/
def applyFormat (le : String → String → Bool) (regions : List Region) :
    List Region :=
  regions.map (applyFormatRegion le)

/-- Two edits share a source offset when some offset lies in both
intervals. -/
def sharesOffset (e1 e2 : TextEdit) : Prop :=
  ∃ o, e1.lo ≤ o ∧ o < e1.hi ∧ e2.lo ≤ o ∧ o < e2.hi

/-- Modelled from the spec: the comparator of the keyword sort finder —
at most, under the canonical rank order of the valid list. -/
def leRank (valid : List String) (a b : String) : Bool :=
  decide (rank valid a ≤ rank valid b)

/-- A filterMap whose function keeps f a exactly when a Prop predicate
fails is the filter of the negation followed by the map. -/
theorem filterMap_ite_none {α β : Type} (p : α → Prop) [DecidablePred p]
    (f : α → β) :
    ∀ l : List α,
      (l.filterMap (fun a => if p a then none else some (f a)))
        = (l.filter (fun a => decide (¬ p a))).map f := by
  intro l
  induction l with
  | nil => rfl
  | cons a l ih =>
    by_cases h : p a <;>
      simp [List.filterMap_cons, List.filter_cons, h, ih]

/-- A filterMap whose function keeps f a exactly when a Prop predicate
holds is the filter followed by the map. -/
theorem filterMap_ite_some {α β : Type} (p : α → Prop) [DecidablePred p]
    (f : α → β) :
    ∀ l : List α,
      (l.filterMap (fun a => if p a then some (f a) else none))
        = (l.filter (fun a => decide (p a))).map f := by
  intro l
  induction l with
  | nil => rfl
  | cons a l ih =>
    by_cases h : p a <;>
      simp [List.filterMap_cons, List.filter_cons, h, ih]

/-- A filterMap whose function keeps f a exactly when a Bool predicate
holds is the filter followed by the map. -/
theorem filterMap_boolIf {α β : Type} (p : α → Bool) (f : α → β) :
    ∀ l : List α,
      (l.filterMap (fun a => if p a then some (f a) else none))
        = (l.filter p).map f := by
  intro l
  induction l with
  | nil => rfl
  | cons a l ih =>
    by_cases h : p a = true <;>
      simp [List.filterMap_cons, List.filter_cons, h, ih]

/-- The Required finder unfolded: the missing entries of the required
list, mapped onto root-anchored diagnostics. -/
theorem requiredKeywordFinder_eq (required : List String) (t : KwTree) :
    requiredKeywordFinder required t
      = (required.filter (fun k => decide (¬ k ∈ presentTexts t.toks))).map
          (mkMissing t) :=
  filterMap_ite_none (fun k => k ∈ presentTexts t.toks) (mkMissing t) required

/-- The Unsorted keyword finder unfolded: the inverted adjacent pairs,
mapped onto spanning diagnostics. -/
theorem unsortedKeywordFinder_eq (valid : List String) (toks : List Token) :
    unsortedKeywordFinder valid toks
      = (invertedPairs valid toks).map (fun p => spanDiag p.1 p.2) :=
  filterMap_ite_some
    (fun p : Token × Token => rank valid p.2.text < rank valid p.1.text)
    (fun p : Token × Token => spanDiag p.1 p.2) (toks.zip toks.tail)

/-- Membership in a stable insertion: the inserted token or a member of
the original list. -/
theorem mem_insertTok (le : String → String → Bool) (t : Token) :
    ∀ (l : List Token) (x : Token), x ∈ insertTok le t l → x = t ∨ x ∈ l := by
  intro l
  induction l with
  | nil =>
    intro x hx
    simp [insertTok] at hx
    exact Or.inl hx
  | cons u us ih =>
    intro x hx
    by_cases h : le u.text t.text = true <;> simp [insertTok, h] at hx
    · rcases hx with hx | hx
      · exact Or.inr (by simp [hx])
      · rcases ih x hx with h2 | h2
        · exact Or.inl h2
        · exact Or.inr (by simp [h2])
    · rcases hx with hx | hx | hx
      · exact Or.inl hx
      · exact Or.inr (by simp [hx])
      · exact Or.inr (by simp [hx])

/-- Stable insertion preserves pairwise order under a total transitive
comparator. -/
theorem insertTok_pairwise (le : String → String → Bool)
    (htot : ∀ a b, le a b = true ∨ le b a = true)
    (htrans : ∀ a b c, le a b = true → le b c = true → le a c = true)
    (t : Token) :
    ∀ l : List Token,
      l.Pairwise (fun a b => le a.text b.text = true) →
      (insertTok le t l).Pairwise (fun a b => le a.text b.text = true) := by
  intro l
  induction l with
  | nil => intro _; simp [insertTok]
  | cons u us ih =>
    intro h
    rw [List.pairwise_cons] at h
    obtain ⟨hu, hus⟩ := h
    by_cases hle : le u.text t.text = true
    · simp only [insertTok, hle, if_true]
      rw [List.pairwise_cons]
      refine ⟨?_, ih hus⟩
      intro x hx
      rcases mem_insertTok le t us x hx with rfl | hx2
      · exact hle
      · exact hu x hx2
    · have htu : le t.text u.text = true := by
        rcases htot u.text t.text with h2 | h2
        · exact absurd h2 hle
        · exact h2
      simp only [insertTok]
      rw [if_neg hle]
      rw [List.pairwise_cons]
      refine ⟨?_, by rw [List.pairwise_cons]; exact ⟨hu, hus⟩⟩
      intro x hx
      rcases List.mem_cons.mp hx with rfl | hx2
      · exact htu
      · exact htrans t.text u.text x.text htu (hu x hx2)

/-- The stable sort produces a pairwise-ordered list under a total
transitive comparator. -/
theorem sortToks_pairwise (le : String → String → Bool)
    (htot : ∀ a b, le a b = true ∨ le b a = true)
    (htrans : ∀ a b c, le a b = true → le b c = true → le a c = true) :
    ∀ l : List Token,
      (sortToks le l).Pairwise (fun a b => le a.text b.text = true) := by
  intro l
  induction l with
  | nil => simp [sortToks]
  | cons t ts ih => exact insertTok_pairwise le htot htrans t _ ih

/-- A pairwise-ordered token list passes the adjacent-order check. -/
theorem pairwise_isSortedAdjacent (le : String → String → Bool) :
    ∀ l : List Token,
      l.Pairwise (fun a b => le a.text b.text = true) →
      isSortedAdjacent le l = true := by
  intro l
  induction l with
  | nil => intro _; rfl
  | cons a l2 ih =>
    intro h
    rw [List.pairwise_cons] at h
    cases l2 with
    | nil => rfl
    | cons b l3 =>
      have hb : le a.text b.text = true := h.1 b (by simp)
      have htail := ih h.2
      simp only [isSortedAdjacent, List.tail_cons, List.zip_cons_cons,
        List.all_cons] at htail ⊢
      simp [hb, htail]

/-- After one format application every region passes the adjacent-order
check. -/
theorem applyFormatRegion_sorted (le : String → String → Bool)
    (htot : ∀ a b, le a b = true ∨ le b a = true)
    (htrans : ∀ a b c, le a b = true → le b c = true → le a c = true)
    (r : Region) :
    isSortedAdjacent le (applyFormatRegion le r).toks = true := by
  unfold applyFormatRegion
  by_cases h : isSortedAdjacent le r.toks = true
  · simp [h]
  · simp only [h, if_false]
    exact pairwise_isSortedAdjacent le _ (sortToks_pairwise le htot htrans r.toks)

/-- A region edit inherits the interval of its region. -/
theorem regionEdit_bounds (le : String → String → Bool) (r : Region)
    (e : TextEdit) (h : regionEdit le r = some e) :
    e.lo = r.lo ∧ e.hi = r.hi := by
  unfold regionEdit at h
  by_cases hs : isSortedAdjacent le r.toks = true
  · rw [if_pos hs] at h
    cases h
  · rw [if_neg hs] at h
    injection h with h2
    subst h2
    exact ⟨rfl, rfl⟩

/-- A filterMap preserves pairwise relations along the function. -/
theorem pairwise_filterMap_of_pairwise {α β : Type} (R : α → α → Prop)
    (S : β → β → Prop) (f : α → Option β)
    (hf : ∀ a b x y, R a b → f a = some x → f b = some y → S x y) :
    ∀ l : List α, l.Pairwise R → (l.filterMap f).Pairwise S := by
  intro l
  induction l with
  | nil => intro _; simp
  | cons a l ih =>
    intro h
    rw [List.pairwise_cons] at h
    rw [List.filterMap_cons]
    cases hfa : f a with
    | none => exact ih h.2
    | some x =>
      rw [List.pairwise_cons]
      refine ⟨?_, ih h.2⟩
      intro y hy
      obtain ⟨b, hb, hfb⟩ := List.mem_filterMap.mp hy
      exact hf a b x y (h.1 b hb) hfa hfb

/-- Lower bound carried by the run scanner: the open run start when a run
is open, the current index otherwise. -/
def runLB : Option Nat → Nat → Nat
  | none, i => i
  | some s, _ => s

/-- The run scanner produces runs in strictly separated increasing order,
all starting at or after the carried lower bound. -/
theorem runsAux_inv (l : List Char) :
    ∀ (i : Nat) (cur : Option Nat), (∀ s, cur = some s → s ≤ i) →
      (runsAux l i cur).Pairwise (fun p q => p.2 < q.1) ∧
      ∀ p ∈ runsAux l i cur, runLB cur i ≤ p.1 := by
  induction l with
  | nil =>
    intro i cur hcur
    cases cur with
    | none => exact ⟨by simp [runsAux], by simp [runsAux]⟩
    | some s =>
      refine ⟨by simp [runsAux], ?_⟩
      intro p hp
      simp [runsAux] at hp
      subst hp
      simp [runLB]
  | cons c cs ih =>
    intro i cur hcur
    cases cur with
    | none =>
      by_cases hw : isWordChar c = true
      · have h := ih (i + 1) (some i) (fun s2 hs2 => by injection hs2 with h2; omega)
        simp only [runsAux, hw, if_true]
        exact ⟨h.1, fun p hp => h.2 p hp⟩
      · have h := ih (i + 1) none (fun s2 hs2 => by cases hs2)
        simp only [runsAux]
        rw [if_neg hw]
        exact ⟨h.1, fun p hp => Nat.le_of_succ_le (h.2 p hp)⟩
    | some s =>
      have hsi : s ≤ i := hcur s rfl
      by_cases hw : isWordChar c = true
      · have h := ih (i + 1) (some s) (fun s2 hs2 => by injection hs2 with h2; omega)
        simp only [runsAux, hw, if_true]
        exact ⟨h.1, fun p hp => h.2 p hp⟩
      · have h := ih (i + 1) none (fun s2 hs2 => by cases hs2)
        simp only [runsAux]
        rw [if_neg hw]
        constructor
        · rw [List.pairwise_cons]
          exact ⟨fun q hq => Nat.lt_of_succ_le (h.2 q hq), h.1⟩
        · intro p hp
          rcases List.mem_cons.mp hp with rfl | hp2
          · simp [runLB]
          · exact Nat.le_trans (Nat.le_trans hsi (Nat.le_succ i)) (h.2 p hp2)

/-- Over strictly separated runs, the first run whose closed span contains
the column is the unique containing run. -/
theorem find_first_run (col : Nat) :
    ∀ runs : List (Nat × Nat), runs.Pairwise (fun p q => p.2 < q.1) →
      ∀ s e, (s, e) ∈ runs → s ≤ col → col ≤ e →
        runs.find? (fun p => p.1 ≤ col && col ≤ p.2) = some (s, e) := by
  intro runs
  induction runs with
  | nil => intro _ s e hmem; cases hmem
  | cons q qs ih =>
    intro hpw s e hmem hs he
    rw [List.pairwise_cons] at hpw
    rcases List.mem_cons.mp hmem with heq | hmem2
    · subst heq
      rw [List.find?_cons_of_pos]
      simp [hs, he]
    · have hlt : q.2 < s := hpw.1 (s, e) hmem2
      rw [List.find?_cons_of_neg, ih hpw.2 s e hmem2 hs he]
      simp only [Bool.and_eq_true, decide_eq_true_eq, not_and]
      intro _
      omega

/-- Python str.isupper characterised: some cased character, and every
cased character uppercase. -/
theorem isupperPy_iff (s : String) :
    isupperPy s = true ↔
      (s.data.any isCased = true ∧
        ∀ c ∈ s.data, isCased c = true → c.isUpper = true) := by
  unfold isupperPy
  rw [Bool.and_eq_true]
  constructor
  · rintro ⟨h1, h2⟩
    refine ⟨h1, ?_⟩
    intro c hc hcase
    have h3 := List.all_eq_true.mp h2 c hc
    simp [hcase] at h3
    exact h3
  · rintro ⟨h1, h2⟩
    refine ⟨h1, ?_⟩
    rw [List.all_eq_true]
    intro c hc
    by_cases hcase : isCased c = true
    · simp [hcase, h2 c hc hcase]
    · rw [Bool.not_eq_true] at hcase
      simp [hcase]

/-- C1: a tree whose present keyword texts contain every entry of the
required list draws no diagnostic from the Required keyword finder; a tree
missing entries draws exactly one diagnostic per missing entry, each
anchored at the tree root and naming the missing keyword. -/
theorem requiredKeywordFinder_correct (required : List String) (t : KwTree) :
    ((∀ k ∈ required, k ∈ presentTexts t.toks) →
      requiredKeywordFinder required t = []) ∧
    (requiredKeywordFinder required t).length
      = (required.filter (fun k => decide (¬ k ∈ presentTexts t.toks))).length ∧
    (∀ k ∈ required, ¬ k ∈ presentTexts t.toks →
      mkMissing t k ∈ requiredKeywordFinder required t) ∧
    (∀ d ∈ requiredKeywordFinder required t,
      ∃ k ∈ required, ¬ k ∈ presentTexts t.toks ∧ d = mkMissing t k ∧
        d.message = missingMsg k) := by
  have heq := requiredKeywordFinder_eq required t
  refine ⟨?_, ?_, ?_, ?_⟩
  · intro hall
    rw [heq]
    have hnil : required.filter (fun k => decide (¬ k ∈ presentTexts t.toks)) = [] := by
      rw [List.filter_eq_nil_iff]
      intro a ha
      simp [hall a ha]
    rw [hnil, List.map_nil]
  · rw [heq, List.length_map]
  · intro k hk hnk
    rw [heq]
    exact List.mem_map_of_mem _ (List.mem_filter.mpr ⟨hk, by simpa using hnk⟩)
  · intro d hd
    rw [heq] at hd
    obtain ⟨k, hk, rfl⟩ := List.mem_map.mp hd
    have hf := List.mem_filter.mp hk
    exact ⟨k, hf.1, by simpa using hf.2, rfl, rfl⟩

/-- C1 witness: with the single required keyword present the finder is
silent; with it absent the finder emits exactly the one diagnostic naming
it. -/
theorem requiredKeywordFinder_correct_witness :
    requiredKeywordFinder ["TERMUX_PKG_VERSION"]
        ⟨0, 40, [⟨"TERMUX_PKG_VERSION", 0, 18⟩]⟩ = [] ∧
    mkMissing ⟨0, 40, ([] : List Token)⟩ "TERMUX_PKG_VERSION"
      ∈ requiredKeywordFinder ["TERMUX_PKG_VERSION"] ⟨0, 40, []⟩ := by
  constructor
  · exact (requiredKeywordFinder_correct ["TERMUX_PKG_VERSION"]
      ⟨0, 40, [⟨"TERMUX_PKG_VERSION", 0, 18⟩]⟩).1 (by decide)
  · exact (requiredKeywordFinder_correct ["TERMUX_PKG_VERSION"]
      ⟨0, 40, []⟩).2.2.1 "TERMUX_PKG_VERSION" (by decide) (by decide)

/-- C2: the Unsorted keyword finder emits exactly one diagnostic per
adjacent pair of keyword nodes, in declaration order, whose ranks under
the canonical order are inverted, each spanning both offending tokens; an
adjacent pair in order draws nothing, and without any adjacent inversion
the finder is silent whatever non-adjacent inversions exist. -/
theorem unsortedKeywordFinder_correct (valid : List String) (toks : List Token) :
    unsortedKeywordFinder valid toks
        = (invertedPairs valid toks).map (fun p => spanDiag p.1 p.2) ∧
    (unsortedKeywordFinder valid toks).length = (invertedPairs valid toks).length ∧
    (∀ p ∈ toks.zip toks.tail, rank valid p.2.text < rank valid p.1.text →
      spanDiag p.1 p.2 ∈ unsortedKeywordFinder valid toks) ∧
    (∀ d ∈ unsortedKeywordFinder valid toks,
      ∃ p ∈ toks.zip toks.tail,
        rank valid p.2.text < rank valid p.1.text ∧ d = spanDiag p.1 p.2 ∧
        d.lo = p.1.lo ∧ d.hi = p.2.hi) ∧
    ((∀ p ∈ toks.zip toks.tail, ¬ rank valid p.2.text < rank valid p.1.text) →
      unsortedKeywordFinder valid toks = []) := by
  have heq := unsortedKeywordFinder_eq valid toks
  refine ⟨heq, ?_, ?_, ?_, ?_⟩
  · rw [heq, List.length_map]
  · intro p hp hinv
    rw [heq]
    refine List.mem_map_of_mem _ (List.mem_filter.mpr ⟨hp, by simpa using hinv⟩)
  · intro d hd
    rw [heq] at hd
    obtain ⟨p, hp, rfl⟩ := List.mem_map.mp hd
    have hf := List.mem_filter.mp hp
    exact ⟨p, hf.1, by simpa using hf.2, rfl, rfl, rfl⟩
  · intro hnone
    rw [heq]
    have hnil : invertedPairs valid toks = [] := by
      rw [invertedPairs, List.filter_eq_nil_iff]
      intro p hp
      simpa using hnone p hp
    rw [hnil, List.map_nil]

/-- C2 witness: under the canonical order DEPENDS, CONFLICTS, PROVIDES the
declaration order PROVIDES, DEPENDS draws exactly one diagnostic spanning
both tokens, and the declaration order DEPENDS, PROVIDES draws none. -/
theorem unsortedKeywordFinder_correct_witness :
    unsortedKeywordFinder ["DEPENDS", "CONFLICTS", "PROVIDES"]
        [⟨"PROVIDES", 0, 8⟩, ⟨"DEPENDS", 9, 16⟩]
      = [⟨0, 16, unsortedMsg "PROVIDES" "DEPENDS"⟩] ∧
    unsortedKeywordFinder ["DEPENDS", "CONFLICTS", "PROVIDES"]
        [⟨"DEPENDS", 0, 7⟩, ⟨"PROVIDES", 8, 16⟩] = [] := by
  constructor
  · rw [(unsortedKeywordFinder_correct ["DEPENDS", "CONFLICTS", "PROVIDES"]
      [⟨"PROVIDES", 0, 8⟩, ⟨"DEPENDS", 9, 16⟩]).1]
    decide
  · exact (unsortedKeywordFinder_correct ["DEPENDS", "CONFLICTS", "PROVIDES"]
      [⟨"DEPENDS", 0, 7⟩, ⟨"PROVIDES", 8, 16⟩]).2.2.2.2 (by decide)

/-- C3: format is idempotent — once the edits of one format call are
applied, a second format call with the same finder configuration
synthesizes no edit, for any input regions, for every total and transitive
comparator. -/
theorem format_idempotent (le : String → String → Bool)
    (htot : ∀ a b, le a b = true ∨ le b a = true)
    (htrans : ∀ a b c, le a b = true → le b c = true → le a c = true)
    (regions : List Region) :
    get_text_edits le (applyFormat le regions) = [] := by
  unfold get_text_edits applyFormat
  induction regions with
  | nil => rfl
  | cons r rs ih =>
    rw [List.map_cons, List.filterMap_cons]
    have hs := applyFormatRegion_sorted le htot htrans r
    rw [show regionEdit le (applyFormatRegion le r) = none from by
      unfold regionEdit
      rw [if_pos hs]]
    exact ih

/-- C3 witness: the keyword-rank comparator is total and transitive, and a
format call right after one application over an unsorted region yields no
edit. -/
theorem format_idempotent_witness :
    get_text_edits (leRank ["DEPENDS", "CONFLICTS", "PROVIDES"])
        (applyFormat (leRank ["DEPENDS", "CONFLICTS", "PROVIDES"])
          [⟨0, 16, [⟨"PROVIDES", 0, 8⟩, ⟨"DEPENDS", 9, 16⟩]⟩]) = [] :=
  format_idempotent (leRank ["DEPENDS", "CONFLICTS", "PROVIDES"])
    (fun a b => by
      unfold leRank
      rcases Nat.le_total (rank ["DEPENDS", "CONFLICTS", "PROVIDES"] a)
        (rank ["DEPENDS", "CONFLICTS", "PROVIDES"] b) with h | h
      · exact Or.inl (by simpa using h)
      · exact Or.inr (by simpa using h))
    (fun a b c hab hbc => by
      unfold leRank at hab hbc ⊢
      simp only [decide_eq_true_eq] at hab hbc ⊢
      omega)
    [⟨0, 16, [⟨"PROVIDES", 0, 8⟩, ⟨"DEPENDS", 9, 16⟩]⟩]

/-- C4: over a non-conflicting finder configuration — pairwise disjoint
regions — no two edits of one format call share any source offset, and
each edit covers the contiguous interval of its region. -/
theorem format_edits_nonoverlap (le : String → String → Bool)
    (regions : List Region)
    (hdisj : regions.Pairwise (fun r1 r2 => r1.hi ≤ r2.lo ∨ r2.hi ≤ r1.lo)) :
    (get_text_edits le regions).Pairwise (fun e1 e2 => ¬ sharesOffset e1 e2) ∧
    (∀ e ∈ get_text_edits le regions, ∃ r ∈ regions, e.lo = r.lo ∧ e.hi = r.hi) := by
  constructor
  · refine pairwise_filterMap_of_pairwise _ _ _ ?_ regions hdisj
    intro r1 r2 e1 e2 hR h1 h2
    obtain ⟨hl1, hh1⟩ := regionEdit_bounds le r1 e1 h1
    obtain ⟨hl2, hh2⟩ := regionEdit_bounds le r2 e2 h2
    rintro ⟨o, ho1, ho2, ho3, ho4⟩
    rcases hR with h | h <;> omega
  · intro e he
    obtain ⟨r, hr, hre⟩ := List.mem_filterMap.mp he
    exact ⟨r, hr, regionEdit_bounds le r e hre⟩

/-- C4 witness: two disjoint unsorted regions — a keyword region and a
value-list region — yield edits sharing no source offset. -/
theorem format_edits_nonoverlap_witness :
    (get_text_edits (leRank ["DEPENDS", "CONFLICTS", "PROVIDES"])
        [⟨0, 16, [⟨"PROVIDES", 0, 8⟩, ⟨"DEPENDS", 9, 16⟩]⟩,
         ⟨20, 30, [⟨"zlib", 20, 24⟩, ⟨"bash", 25, 29⟩]⟩]).Pairwise
      (fun e1 e2 => ¬ sharesOffset e1 e2) :=
  (format_edits_nonoverlap (leRank ["DEPENDS", "CONFLICTS", "PROVIDES"])
    [⟨0, 16, [⟨"PROVIDES", 0, 8⟩, ⟨"DEPENDS", 9, 16⟩]⟩,
     ⟨20, 30, [⟨"zlib", 20, 24⟩, ⟨"bash", 25, 29⟩]⟩]
    (by simp [List.pairwise_cons])).1

/-- C5 counterexample: a schema entry whose documentation text is empty
and whose tag is the active filetype is present for the resolved node's
text, yet hover answers nothing, where the claim promises the entry's
documentation with the token's range. -/
theorem hover_counterexample :
    (("X", "", "build.sh") ∈ ([("X", "", "build.sh")] : Schema)) ∧
    docGet [("X", "", "build.sh")] "X" = ("", "build.sh") ∧
    hover [("X", "", "build.sh")] "build.sh"
        (some ⟨"X", ⟨⟨0, 0⟩, ⟨0, 1⟩⟩⟩) = none := by
  refine ⟨by decide, by decide, by decide⟩

/-- C5 amended: when the cursor resolves to a node whose text is looked up
in the schema to a non-empty documentation tagged with the active
filetype, hover answers that documentation together with the resolved
token's range; when the lookup yields an empty documentation — in
particular when the text is absent from the schema — or a tag differing
from the active filetype, hover answers nothing. -/
theorem hover_correct (doc : Schema) (filetype : String) (n : Node)
    (d f : String) (hget : docGet doc n.text = (d, f)) :
    (d ≠ "" → f = filetype → hover doc filetype (some n) = some ⟨d, n.range⟩) ∧
    (d = "" ∨ f ≠ filetype → hover doc filetype (some n) = none) := by
  constructor
  · intro hd hf
    simp [hover, hget, hd, hf]
  · intro h
    rcases h with h | h <;> simp [hover, hget, h]

/-- C5 witness: a schema entry with non-empty documentation tagged with
the active filetype is answered with its documentation and the resolved
token's range. -/
theorem hover_correct_witness :
    hover [("DEPENDS", "dependency list", "build.sh")] "build.sh"
        (some ⟨"DEPENDS", ⟨⟨2, 0⟩, ⟨2, 7⟩⟩⟩)
      = some ⟨"dependency list", ⟨⟨2, 0⟩, ⟨2, 7⟩⟩⟩ :=
  (hover_correct [("DEPENDS", "dependency list", "build.sh")] "build.sh"
    ⟨"DEPENDS", ⟨⟨2, 0⟩, ⟨2, 7⟩⟩⟩ "dependency list" "build.sh" (by decide)).1
    (by decide) (by decide)

/-- C6 counterexample: an entry tagged sh under the active filetype
build.sh carries a tag different from the filetype, yet completion returns
it, because the source tests the tag with the Python in operator —
substring containment — not equality. -/
theorem completions_counterexample :
    (("sh" : String) ≠ "build.sh") ∧
    (completions [("DEPENDS", "d", "sh")] "build.sh" "DEP").map
        (fun it => it.label) = ["DEPENDS"] := by
  refine ⟨by decide, by decide⟩

/-- C6 amended: the completion result lists exactly the schema entries
whose name starts with the extracted prefix and whose filetype tag occurs
as a substring of the active filetype, in schema order, each item carrying
its entry's documentation; no fuzzy matching occurs. -/
theorem completions_exact (doc : Schema) (filetype token : String) :
    (completions doc filetype token).map (fun it => it.label)
        = (doc.filter (fun e =>
            token.data.isPrefixOf e.1.data && strContains filetype e.2.2)).map
              (fun e => e.1) ∧
    (∀ it ∈ completions doc filetype token,
      token.data.isPrefixOf it.label.data = true ∧
      ∃ f, (it.label, it.documentation, f) ∈ doc ∧ strContains filetype f = true) ∧
    (∀ e ∈ doc, token.data.isPrefixOf e.1.data = true →
      strContains filetype e.2.2 = true →
      ∃ it ∈ completions doc filetype token,
        it.label = e.1 ∧ it.documentation = e.2.1) := by
  have heq := filterMap_boolIf
    (fun e : String × String × String =>
      token.data.isPrefixOf e.1.data && strContains filetype e.2.2)
    (fun e : String × String × String =>
      (⟨e.1, if isupperPy e.1 then CompletionItemKind.Variable
             else CompletionItemKind.Function, e.2.1, e.1⟩ : CompletionItem))
    doc
  refine ⟨?_, ?_, ?_⟩
  · rw [show completions doc filetype token
        = (doc.filter (fun e =>
            token.data.isPrefixOf e.1.data && strContains filetype e.2.2)).map
              (fun e => (⟨e.1, if isupperPy e.1 then CompletionItemKind.Variable
                else CompletionItemKind.Function, e.2.1, e.1⟩ : CompletionItem))
          from heq, List.map_map]
    rfl
  · intro it hit
    obtain ⟨e, he, hsome⟩ := List.mem_filterMap.mp hit
    by_cases hc : (token.data.isPrefixOf e.1.data && strContains filetype e.2.2) = true
    · rw [if_pos hc] at hsome
      injection hsome with hsome
      subst hsome
      rw [Bool.and_eq_true] at hc
      exact ⟨hc.1, e.2.2, he, hc.2⟩
    · rw [if_neg hc] at hsome
      cases hsome
  · intro e he hpre hsub
    refine ⟨⟨e.1, if isupperPy e.1 then CompletionItemKind.Variable
      else CompletionItemKind.Function, e.2.1, e.1⟩, ?_, rfl, rfl⟩
    refine List.mem_filterMap.mpr ⟨e, he, ?_⟩
    rw [if_pos (by rw [Bool.and_eq_true]; exact ⟨hpre, hsub⟩)]

/-- C6 witness: with prefix DEP over a schema holding DEPENDS,
DEPENDS_PKG and PROVIDES tagged for the active filetype, the result is
exactly DEPENDS and DEPENDS_PKG, and the DEPENDS item carries its
documentation. -/
theorem completions_exact_witness :
    (completions
        [("DEPENDS", "d1", "build.sh"), ("DEPENDS_PKG", "d2", "build.sh"),
         ("PROVIDES", "d3", "build.sh")] "build.sh" "DEP").map
      (fun it => it.label) = ["DEPENDS", "DEPENDS_PKG"] ∧
    ∃ it ∈ completions
        [("DEPENDS", "d1", "build.sh"), ("DEPENDS_PKG", "d2", "build.sh"),
         ("PROVIDES", "d3", "build.sh")] "build.sh" "DEP",
      it.label = "DEPENDS" ∧ it.documentation = "d1" := by
  constructor
  · rw [(completions_exact
      [("DEPENDS", "d1", "build.sh"), ("DEPENDS_PKG", "d2", "build.sh"),
       ("PROVIDES", "d3", "build.sh")] "build.sh" "DEP").1]
    decide
  · exact (completions_exact
      [("DEPENDS", "d1", "build.sh"), ("DEPENDS_PKG", "d2", "build.sh"),
       ("PROVIDES", "d3", "build.sh")] "build.sh" "DEP").2.2
      ("DEPENDS", "d1", "build.sh") (by decide) (by decide) (by decide)

/-- C7: a uri the filetype classifier maps to no known filetype makes
every operation fail closed rather than raise: formatting returns no
edits, document-link no links, completion an empty item list, hover no
result, and the change handler computes no diagnostics. -/
theorem unknown_filetype_fails_closed (uri : String)
    (h : get_filetype uri = "")
    (b1 : String → List TextEdit) (b2 : String → List DocumentLink)
    (b3 : String → CompletionList) (b4 : String → Option HoverResult)
    (b5 : String → List Diag) :
    format_handler b1 uri = [] ∧
    document_link b2 uri = [] ∧
    completions_handler b3 uri = ⟨false, []⟩ ∧
    hover_handler b4 uri = none ∧
    did_change b5 uri = none := by
  refine ⟨?_, ?_, ?_, ?_, ?_⟩ <;>
    simp [format_handler, document_link, completions_handler, hover_handler,
      did_change, h]

/-- C7 witness: the classifier yields no filetype for a txt uri, and every
handler fails closed there, whatever their bodies would compute. -/
theorem unknown_filetype_fails_closed_witness :
    format_handler (fun _ => [⟨0, 1, "x"⟩]) "file:///a/foo.txt" = [] ∧
    document_link (fun _ => [⟨0, 1, "u"⟩]) "file:///a/foo.txt" = [] ∧
    completions_handler (fun _ => ⟨true, []⟩) "file:///a/foo.txt" = ⟨false, []⟩ ∧
    hover_handler (fun _ => some ⟨"d", ⟨⟨0, 0⟩, ⟨0, 1⟩⟩⟩) "file:///a/foo.txt"
      = none ∧
    did_change (fun _ => []) "file:///a/foo.txt" = none :=
  unknown_filetype_fails_closed "file:///a/foo.txt" (by decide) _ _ _ _ _

/-- C8: when the cursor column lies within a word run of the line — run
start at most the column, column at most the run end — the cursor-word
extraction returns the slice of the line from the run start up to the
cursor column, never past it, with the range from the run start to the
cursor column on the cursor's line. -/
theorem cursorWord_in_match (line : List Char) (lineNo col s e : Nat)
    (hmem : (s, e) ∈ wordRuns line) (hs : s ≤ col) (he : col ≤ e) :
    cursorWord line lineNo col
      = ((line.drop s).take (col - s), ⟨⟨lineNo, s⟩, ⟨lineNo, col⟩⟩) := by
  have hpw := (runsAux_inv line 0 none (fun s2 hs2 => by cases hs2)).1
  have hfind := find_first_run col (wordRuns line) hpw s e hmem hs he
  unfold cursorWord
  rw [hfind]

/-- C8 witness: on the line ab cd with the cursor at column 4, inside the
run from 3 to 5, the extraction returns the one-character prefix c with
the range from column 3 to column 4. -/
theorem cursorWord_in_match_witness :
    cursorWord "ab cd".data 0 4 = (['c'], ⟨⟨0, 3⟩, ⟨0, 4⟩⟩) :=
  (cursorWord_in_match "ab cd".data 0 4 3 5 (by decide) (by decide)
    (by decide)).trans (by decide)

/-- C9: a completion item is tagged Variable exactly when its name is
all-uppercase — at least one cased character and every cased character
uppercase, the convention str.isupper implements — and Function
otherwise. -/
theorem completion_kind_by_case (doc : Schema) (filetype token : String)
    (it : CompletionItem) (hit : it ∈ completions doc filetype token) :
    (it.kind = CompletionItemKind.Variable ↔
      (it.label.data.any isCased = true ∧
        ∀ c ∈ it.label.data, isCased c = true → c.isUpper = true)) ∧
    (it.kind = CompletionItemKind.Function ↔
      ¬(it.label.data.any isCased = true ∧
        ∀ c ∈ it.label.data, isCased c = true → c.isUpper = true)) := by
  obtain ⟨e, he, hsome⟩ := List.mem_filterMap.mp hit
  by_cases hc : (token.data.isPrefixOf e.1.data && strContains filetype e.2.2) = true
  · rw [if_pos hc] at hsome
    injection hsome with hsome
    subst hsome
    by_cases hu : isupperPy e.1 = true
    · have hchar := (isupperPy_iff e.1).mp hu
      rw [show (⟨e.1, if isupperPy e.1 then CompletionItemKind.Variable
        else CompletionItemKind.Function, e.2.1, e.1⟩ : CompletionItem).kind
          = CompletionItemKind.Variable from by rw [if_pos hu]]
      constructor
      · constructor
        · intro _; exact hchar
        · intro _; rfl
      · constructor
        · intro h2; cases h2
        · intro h2; exact absurd hchar h2
    · have hchar : ¬(e.1.data.any isCased = true ∧
          ∀ c ∈ e.1.data, isCased c = true → c.isUpper = true) :=
        fun h2 => hu ((isupperPy_iff e.1).mpr h2)
      rw [show (⟨e.1, if isupperPy e.1 then CompletionItemKind.Variable
        else CompletionItemKind.Function, e.2.1, e.1⟩ : CompletionItem).kind
          = CompletionItemKind.Function from by rw [if_neg hu]]
      constructor
      · constructor
        · intro h2; cases h2
        · intro h2; exact absurd h2 hchar
      · constructor
        · intro _; exact hchar
        · intro _; rfl
  · rw [if_neg hc] at hsome
    cases hsome

/-- C9 witness: the all-uppercase name DEPENDS_PKG is tagged Variable and
the lowercase name termux_step_make is tagged Function in a concrete
completion result. -/
theorem completion_kind_by_case_witness :
    ((⟨"DEPENDS_PKG", CompletionItemKind.Variable, "d1", "DEPENDS_PKG"⟩
        : CompletionItem).kind = CompletionItemKind.Variable ↔
      (("DEPENDS_PKG" : String).data.any isCased = true ∧
        ∀ c ∈ ("DEPENDS_PKG" : String).data,
          isCased c = true → c.isUpper = true)) ∧
    ((⟨"DEPENDS_PKG", CompletionItemKind.Variable, "d1", "DEPENDS_PKG"⟩
        : CompletionItem).kind = CompletionItemKind.Function ↔
      ¬(("DEPENDS_PKG" : String).data.any isCased = true ∧
        ∀ c ∈ ("DEPENDS_PKG" : String).data,
          isCased c = true → c.isUpper = true)) :=
  completion_kind_by_case [("DEPENDS_PKG", "d1", "build.sh")] "build.sh" ""
    ⟨"DEPENDS_PKG", CompletionItemKind.Variable, "d1", "DEPENDS_PKG"⟩
    (by decide)

/-- C10: the cursor-word extraction is total — the None test at its call
site never fires, the completion token is always the returned pair's first
component — and when no word run contains the cursor column it returns the
empty word with a zero-width range at column 0 of the cursor's line. -/
theorem cursorWord_total (line : List Char) (lineNo col : Nat) :
    (cursorWordOpt line lineNo col).isSome = true ∧
    completionToken line lineNo col = (cursorWord line lineNo col).1 ∧
    ((∀ p ∈ wordRuns line, ¬(p.1 ≤ col ∧ col ≤ p.2)) →
      cursorWord line lineNo col = ([], ⟨⟨lineNo, 0⟩, ⟨lineNo, 0⟩⟩)) := by
  refine ⟨rfl, rfl, ?_⟩
  intro h
  unfold cursorWord
  have hnone : (wordRuns line).find? (fun p => p.1 ≤ col && col ≤ p.2) = none := by
    rw [List.find?_eq_none]
    intro p hp
    have h2 := h p hp
    simp only [Bool.and_eq_true, decide_eq_true_eq]
    exact fun h3 => h2 h3
  rw [hnone]

/-- C10 witness: on a line without word characters the extraction returns
the empty word with a zero-width range at column 0. -/
theorem cursorWord_total_witness :
    cursorWord "- -".data 0 1 = ([], ⟨⟨0, 0⟩, ⟨0, 0⟩⟩) :=
  (cursorWord_total "- -".data 0 1).2.2 (by decide)
